import Mathlib

/-!
Verification of the `copula_approach` modules of `arbitragelab`
(`copula_calculation.py`, `vine_copula_partner_selection.py`,
`vine_copula_partner_selection_utils.py`) against their natural-language
specification.  Python functions are embedded shallowly: numeric data is
modelled by `ℚ` (exact rational arithmetic) except where a transcendental
function of the source (`np.log`, `sqrt` inside `scipy.stats.kendalltau`)
forces `ℝ`; fallible Python code returns `Except PyErr`.
-/

namespace ArbitrageLab

/-- Error kinds: `ZeroDivisionError` and `UnboundLocalError` are the Python
runtime errors the code can actually raise; the remaining constructors name
the specification's error taxonomy (`DegenerateFit`, `InvalidFamily`,
`InvalidSampleSize`, `MissingParameter`, `SingularMatrix`). -/
inductive PyErr
  | DegenerateFit
  | InvalidFamily
  | InvalidSampleSize
  | MissingParameter
  | ZeroDivisionError
  | UnboundLocalError
  | SingularMatrix
  deriving DecidableEq, Repr

/-- Model of `itertools.combinations(l, k)`: all `k`-element subsequences of
`l`, emitted in lexicographic order of the positions of `l` (the order
`itertools` documents). -/
def combinations {α : Type*} : ℕ → List α → List (List α)
  | 0, _ => [[]]
  | _ + 1, [] => []
  | k + 1, x :: xs => (combinations k xs).map (fun c => x :: c) ++ combinations (k + 1) xs

/-- Embedding of `PartnerSelection._generate_all_quadruples_helper`: for a
target stock and its row of partner stocks, prefix the target onto every
3-combination of the row. -/
def generate_all_quadruples_helper {α : Type*} (target : α) (row : List α) :
    List (List α) :=
  (combinations 3 row).map (fun triple => target :: triple)

/-- Embedding of `PartnerSelection._prepare_combinations_of_partners`: the
partner indices are `np.arange(1, len(stock_selection))`, every
3-combination of them is prefixed with the target index `0`. -/
def prepare_combinations_of_partners {α : Type*} (stock_selection : List α) :
    List (List ℕ) :=
  (combinations 3 (List.range' 1 (stock_selection.length - 1))).map
    (fun comb => 0 :: comb)

/-- Model of `np.argmax` on a nonempty list `x :: ys`: returns (index, value)
of the first occurrence of the maximum. -/
def argmaxPair {α : Type*} [LinearOrder α] : α → List α → ℕ × α
  | x, [] => (0, x)
  | x, y :: ys =>
    let p := argmaxPair y ys
    if p.2 ≤ x then (0, x) else (p.1 + 1, p.2)

/-- Model of `np.argmax`: index of the first occurrence of the maximum
(`0` on the empty list, where NumPy raises). -/
def argmaxIdx {α : Type*} [LinearOrder α] : List α → ℕ
  | [] => 0
  | x :: xs => (argmaxPair x xs).1

/-- Model of `np.argmin` on a nonempty list `x :: ys`: returns (index, value)
of the first occurrence of the minimum. -/
def argminPair {α : Type*} [LinearOrder α] : α → List α → ℕ × α
  | x, [] => (0, x)
  | x, y :: ys =>
    let p := argminPair y ys
    if x ≤ p.2 then (0, x) else (p.1 + 1, p.2)

/-- Model of `np.argmin`: index of the first occurrence of the minimum. -/
def argminIdx {α : Type*} [LinearOrder α] : List α → ℕ
  | [] => 0
  | x :: xs => (argminPair x xs).1

/-- Raw all-pairs correlation sum of `get_sum_correlations_vectorized`: the
`take_along_axis` gather followed by the sum over both combination axes
computes, for a combo `c`, the sum of `M i k` over all `(i, k)` in `c × c`. -/
def rawPairSum (M : ℕ → ℕ → ℚ) (combo : List ℕ) : ℚ :=
  (combo.map (fun i => (combo.map (fun k => M i k)).sum)).sum

/-- Direct (non-vectorized) sum of the pairwise correlations over the
unordered index pairs of the combo: 6 terms for a quadruple. -/
def directPairSum (M : ℕ → ℕ → ℚ) : List ℕ → ℚ
  | [] => 0
  | i :: rest => (rest.map (fun k => M i k)).sum + directPairSum M rest

/-- Embedding of `get_sum_correlations_vectorized`: `names` are the columns
of the correlation sub-matrix `data_subset`, `M r k` its entry at row `r`,
column `k` (rows and columns indexed alike), `combos` the candidate index
quadruples.  Scores are `(raw all-pairs sum - d) / 2`; the winner is chosen
by `np.argmax`. -/
def get_sum_correlations_vectorized (names : List String) (M : ℕ → ℕ → ℚ)
    (combos : List (List ℕ)) : List String × ℚ :=
  let corr_sums := combos.map (fun c => (rawPairSum M c - c.length) / 2)
  let max_index := argmaxIdx corr_sums
  ((combos.getD max_index []).map (fun i => names.getD i ""),
    corr_sums.getD max_index 0)

/-- Concrete symmetric correlation matrix with unit diagonal used by the
witness of `sum_correlations_spec`. -/
def wM : ℕ → ℕ → ℚ := fun i j => if i = j then 1 else 1 / 2

/-- Default probability floor of `find_marginal_cdf` (`prob_floor = 0.00001`). -/
def prob_floor_default : ℚ := 1 / 100000

/-- Default probability cap of `find_marginal_cdf` (`prob_cap = 0.99999`). -/
def prob_cap_default : ℚ := 99999 / 100000

/-- Model of `statsmodels` `ECDF(x)(q)`: fraction of sample points `≤ q`. -/
def ECDF (x : List ℚ) (q : ℚ) : ℚ := (x.countP (fun s => s ≤ q) : ℚ) / x.length

/-- Scalar empirical CDF closed over inside `find_marginal_cdf`:
`lambda data: max(min(ECDF(x)(data), prob_cap), prob_floor)`. -/
def fitted_cdf (x : List ℚ) (prob_floor prob_cap : ℚ) (q : ℚ) : ℚ :=
  max (min (ECDF x q) prob_cap) prob_floor

/-- Embedding of `find_marginal_cdf`: with `empirical = True` it returns the
`np.vectorize`d CDF (element-wise application of the scalar CDF to an array
of query points); with `empirical = False` the function body falls through
to `return None`. -/
def find_marginal_cdf (x : List ℚ) (empirical : Bool)
    (prob_floor prob_cap : ℚ) : Option (List ℚ → List ℚ) :=
  if empirical then some (fun qs => qs.map (fitted_cdf x prob_floor prob_cap))
  else none

/-- Embedding of `aic`: Python evaluates `(2*n/(n-k-1))*k - 2*log_likelihood`
with integer `n`, `k` and raises `ZeroDivisionError` exactly when the
denominator `n - k - 1` is zero; no other validation is performed. -/
def aic (log_likelihood : ℚ) (n k : ℤ) : Except PyErr ℚ :=
  if n - k - 1 = 0 then .error .ZeroDivisionError
  else .ok (2 * (n : ℚ) / ((n : ℚ) - (k : ℚ) - 1) * (k : ℚ) - 2 * log_likelihood)

/-- Bivariate copula object as produced by the family factory
(`copula_generate.Switcher`), reduced to the two members that
`copula_calculation.py` uses: the density `c(x, y)` and the Kendall-tau
inversion `theta_hat(tau)`.  The factory lives in `copula_generate.py`,
which is not among the sources under verification, so the object is kept
abstract; `theta_hat` is fallible so that factory-made objects lacking the
tau inversion can be modelled. -/
structure Copula where
  c : ℚ → ℚ → ℝ
  theta_hat : ℝ → Except PyErr ℝ

/-- Family factory interface (`cg.Switcher().choose_copula`), abstract for
the same reason; the three fields correspond to the keyword patterns
`choose_copula(name, cov=...)`, `choose_copula(name, theta=...)` and
`choose_copula(name, cov=..., nu=...)` appearing in
`copula_calculation.py`. -/
structure Switcher where
  choose_cov : String → Matrix (Fin 2) (Fin 2) ℝ → Copula
  choose_theta : String → ℝ → Copula
  choose_cov_nu : String → Matrix (Fin 2) (Fin 2) ℝ → ℝ → Copula

/-- Concordance sign of two data points: sign of the product of the
coordinate differences. -/
def concordSign (p q : ℚ × ℚ) : ℤ :=
  if 0 < (p.1 - q.1) * (p.2 - q.2) then 1
  else if (p.1 - q.1) * (p.2 - q.2) < 0 then -1 else 0

/-- Sum of `f` over the unordered index pairs of a list. -/
def pairSumZ {α : Type*} (f : α → α → ℤ) : List α → ℤ
  | [] => 0
  | p :: ps => (ps.map (f p)).sum + pairSumZ f ps

/-- Model of `scipy.stats.kendalltau` (the default tau-b statistic):
`(P - Q) / sqrt((n0 - n1) * (n0 - n2))`, where `P - Q` is the concordant
minus discordant pair count and `n0 - n1`, `n0 - n2` are the numbers of
pairs untied in the first and second coordinate. -/
noncomputable def kendalltau (x y : List ℚ) : ℝ :=
  let pts := x.zip y
  let num := pairSumZ concordSign pts
  let dx := pairSumZ (fun p q => if p.1 ≠ q.1 then 1 else 0) pts
  let dy := pairSumZ (fun p q => if p.2 ≠ q.2 then 1 else 0) pts
  (num : ℝ) / Real.sqrt ((dx : ℝ) * (dy : ℝ))

/-- Embedding of `ml_theta_hat`: computes Kendall's tau from the data,
builds the copula by name with the dud identity covariance, and invokes its
tau-to-theta inversion.  The function performs no family-name check of its
own. -/
noncomputable def ml_theta_hat (sw : Switcher) (x y : List ℚ)
    (copula_name : String) : Except PyErr ℝ :=
  let tau := kendalltau x y
  let dud_cov : Matrix (Fin 2) (Fin 2) ℝ := 1
  (sw.choose_cov copula_name dud_cov).theta_hat tau

/-- Inverse-CDF externals of the Gaussian/Student branches of `log_ml`
(`scipy.stats.norm.ppf` and `scipy.stats.t(df=nu).ppf`), kept abstract. -/
structure PpfLib where
  norm_ppf : ℚ → ℝ
  t_ppf : ℝ → ℚ → ℝ

/-- Model of `sklearn.covariance.EmpiricalCovariance().fit(...).covariance_`
on a two-column data matrix: mean-centred second moments, divided by the
number of rows. -/
noncomputable def empirical_cov (pts : List (ℝ × ℝ)) : Matrix (Fin 2) (Fin 2) ℝ :=
  let n : ℝ := pts.length
  let m : Fin 2 → ℝ := fun i => (pts.map (fun p => if i = 0 then p.1 else p.2)).sum / n
  Matrix.of fun i j =>
    (pts.map (fun p =>
      ((if i = 0 then p.1 else p.2) - m i) * ((if j = 0 then p.1 else p.2) - m j))).sum / n

/-- Final two lines of `log_ml`: the density list
`[my_copula.c(xi, yi) for (xi, yi) in zip(x, y)]` followed by
`np.sum(np.log(likelihood_list))`. -/
noncomputable def log_likelihood_sum (cop : Copula) (x y : List ℚ) : ℝ :=
  ((x.zip y).map (fun p => Real.log (cop.c p.1 p.2))).sum

/-- Theta-style families recognised by `log_ml`. -/
def theta_copula_names : List String := ["Gumbel", "Clayton", "Frank", "Joe", "N13", "N14"]

/-- Embedding of `log_ml`.  The Python body assigns `my_copula` in one of
three `if` branches and finally evaluates the density list; with an unknown
name the final line raises `UnboundLocalError`; `np.log` is applied to the
density values unconditionally — the body contains no positivity check.
`Student` with `nu = None` is modelled as `MissingParameter`, following the
spec's description of the external `scipy.stats.t` call (`dof` required,
else error). -/
noncomputable def log_ml (sw : Switcher) (lib : PpfLib) (x y : List ℚ)
    (copula_name : String) (nu : Option ℝ) : Except PyErr (ℝ × Copula) :=
  if copula_name ∈ theta_copula_names then
    match ml_theta_hat sw x y copula_name with
    | .error e => .error e
    | .ok theta =>
      let my_copula := sw.choose_theta copula_name theta
      .ok (log_likelihood_sum my_copula x y, my_copula)
  else if copula_name = "Gaussian" then
    let value_data := (x.zip y).map (fun p => (lib.norm_ppf p.1, lib.norm_ppf p.2))
    let my_copula := sw.choose_cov copula_name (empirical_cov value_data)
    .ok (log_likelihood_sum my_copula x y, my_copula)
  else if copula_name = "Student" then
    match nu with
    | none => .error .MissingParameter
    | some v =>
      let value_data := (x.zip y).map (fun p => (lib.t_ppf v p.1, lib.t_ppf v p.2))
      let my_copula := sw.choose_cov_nu copula_name (empirical_cov value_data) v
      .ok (log_likelihood_sum my_copula x y, my_copula)
  else .error .UnboundLocalError

/-- Modelled from the spec: the Dependence Family Interface
(`copula_generate.py`, not among the sources under verification) provides no
Kendall-tau-to-parameter inversion for the elliptical families `"Gaussian"`
and `"Student"` — they require full covariance estimation — so the
`theta_hat` member of a factory-made object of those families fails with
`InvalidFamily`. -/
def EllipticalTauPathFails (sw : Switcher) : Prop :=
  ∀ cov tau,
    (sw.choose_cov "Gaussian" cov).theta_hat tau = .error .InvalidFamily ∧
    (sw.choose_cov "Student" cov).theta_hat tau = .error .InvalidFamily

/-- Factory used by the witnesses: elliptical families reject the tau path,
every other family inverts tau to the constant `1`; densities are constant. -/
noncomputable def specSwitcher : Switcher where
  choose_cov := fun name _ =>
    { c := fun _ _ => 1
      theta_hat := fun _ =>
        if name = "Gaussian" ∨ name = "Student" then .error .InvalidFamily
        else .ok 1 }
  choose_theta := fun _ _ => { c := fun _ _ => 1, theta_hat := fun _ => .ok 1 }
  choose_cov_nu := fun _ _ _ => { c := fun _ _ => 1, theta_hat := fun _ => .ok 1 }

/-- Copula with identically zero density, used to exhibit C3's failure. -/
noncomputable def zeroDensityCopula : Copula where
  c := fun _ _ => 0
  theta_hat := fun _ => .ok 1

/-- Factory returning the zero-density copula for every family. -/
noncomputable def zeroDensitySwitcher : Switcher where
  choose_cov := fun _ _ => zeroDensityCopula
  choose_theta := fun _ _ => zeroDensityCopula
  choose_cov_nu := fun _ _ _ => zeroDensityCopula

/-- Degenerate inverse-CDF library for the witnesses. -/
noncomputable def dudPpf : PpfLib where
  norm_ppf := fun _ => 0
  t_ppf := fun _ _ => 0

/-- Stable insertion into a list sorted descending by the second component:
the inserted pair goes before the first pair of value `≤` its own, so
original order is kept among ties. -/
def insertDesc {α : Type*} (x : α × ℚ) : List (α × ℚ) → List (α × ℚ)
  | [] => [x]
  | y :: ys => if y.2 ≤ x.2 then x :: y :: ys else y :: insertDesc x ys

/-- Model of `pandas.Series.sort_values(ascending=False)` on a labelled
column: stable sort, descending in the value, ties kept in original label
order (`pandas`' default `kind='quicksort'` leaves tie order unspecified;
the stable `mergesort` behaviour is taken as the model). -/
def sortValuesDesc {α : Type*} : List (α × ℚ) → List (α × ℚ)
  | [] => []
  | x :: xs => insertDesc x (sortValuesDesc xs)

/-- Embedding of the inner `tickers_list` of
`PartnerSelection._top_50_tickers`:
`col.sort_values(ascending=False)[1:51].index.to_list()` — sort the whole
column (self included), drop the first row, keep the next 50 labels. -/
def tickers_list {α : Type*} (pairs : List (α × ℚ)) : List α :=
  (((sortValuesDesc pairs).drop 1).take 50).map Prod.fst

/-- Embedding of `PartnerSelection._top_50_tickers` at one target column of
the correlation matrix `M`: the column pairs every asset with its
correlation to the target. -/
def top_50_tickers {α : Type*} (assets : List α) (M : α → α → ℚ) (t : α) :
    List α :=
  tickers_list (assets.map (fun a => (a, M a t)))

/-- Definition following the spec's words, for the refinement comparison of
C9: keep the assets other than the target, sort them by correlation with
the target in descending order (stable), truncate to the first `k`. -/
def top_k_neighbors_spec {α : Type*} [DecidableEq α] (assets : List α)
    (M : α → α → ℚ) (t : α) (k : ℕ) : List α :=
  ((sortValuesDesc ((assets.filter (fun a => a ≠ t)).map
    (fun a => (a, M a t)))).take k).map Prod.fst

/-- Correlation matrix (identity-like) for the C9 witness: the target is the
unique strict maximum of every column. -/
def wM9 : String → String → ℚ := fun a b => if a = b then 1 else 0

/-- Coordinates of one time row selected by a combo (`u[:, combo]`). -/
def rowVals (row : List ℚ) (combo : List ℕ) : List ℚ :=
  combo.map (fun k => row.getD k 0)

/-- Per-row perpendicular distance to the hyper-diagonal computed by
`diagonal_measure_vectorized`: with `pp = (Σ u_k)/‖(1,…,1)‖` (so
`pp² = (Σ u_k)²/d`) and `pn = sqrt(Σ u_k²)`, the row contributes
`sqrt(pn² - pp²)`. -/
noncomputable def rowDiagDist (row : List ℚ) (combo : List ℕ) : ℝ :=
  Real.sqrt (((((rowVals row combo).map (fun v => v ^ 2)).sum : ℚ) : ℝ) -
    (((rowVals row combo).sum : ℚ) : ℝ) ^ 2 / (combo.length : ℝ))

/-- Total diagonal-distance score of a combo: row distances summed over all
time rows (`.sum(axis=1)` of the per-row distances). -/
noncomputable def diagScore (data : List (List ℚ)) (combo : List ℕ) : ℝ :=
  (data.map (fun row => rowDiagDist row combo)).sum

/-- Embedding of `diagonal_measure_vectorized`: score every candidate,
pick the first minimizer with `np.argmin`, return its column labels and its
score. -/
noncomputable def diagonal_measure_vectorized (names : List String)
    (data : List (List ℚ)) (combos : List (List ℕ)) : List String × ℝ :=
  let distance_scores := combos.map (diagScore data)
  let min_index := argminIdx distance_scores
  ((combos.getD min_index []).map (fun i => names.getD i ""),
    distance_scores.getD min_index 0)

/-- Row of the ranked-return table lying exactly on the hyper-diagonal of a
combo: all selected coordinates agree. -/
def onDiag (row : List ℚ) (c : List ℕ) : Prop :=
  ∀ k1 ∈ c, ∀ k2 ∈ c, row.getD k1 0 = row.getD k2 0

instance (row : List ℚ) (c : List ℕ) : Decidable (onDiag row c) := by
  unfold onDiag
  exact inferInstance

/-- Ranked-return rows for the C8 witness: one row, the first four columns
on the diagonal, the fifth off it. -/
def wData8 : List (List ℚ) := [[1, 1, 1, 1, 0]]

/-- Upper-triangle fill of `get_co_variance_matrix`: entry `(i, j)` holds
the numerically integrated value for `j ≥ i` and the initial `np.zeros`
value `0` for `j < i` (those integrals are skipped).  The external
`scipy.integrate.nquad` call on `variance_integral_func` is modelled as an
oracle `integ` giving the integral value for the pair of `{1,2}^4`
exponent tuples at enumeration positions `(i, j)`. -/
def coVarUpper (integ : Fin 16 → Fin 16 → ℚ) : Matrix (Fin 16) (Fin 16) ℚ :=
  Matrix.of fun i j => if j < i then 0 else integ i j

/-- Mirror step `co_variance_matrix[inds] = co_variance_matrix.T[inds]`
with `inds = np.tri(16, k=-1)`, the strict lower triangle: those entries
are replaced by their transposed mates. -/
def coVarFull (integ : Fin 16 → Fin 16 → ℚ) : Matrix (Fin 16) (Fin 16) ℚ :=
  Matrix.of fun i j =>
    if j < i then coVarUpper integ j i else coVarUpper integ i j

/-- Embedding of `get_co_variance_matrix`: build the mirrored matrix and
return its inverse (`np.linalg.inv`), which raises `LinAlgError` — modelled
as `SingularMatrix` — when the matrix is singular. -/
noncomputable def get_co_variance_matrix (integ : Fin 16 → Fin 16 → ℚ) :
    Except PyErr (Matrix (Fin 16) (Fin 16) ℚ) :=
  if (coVarFull integ).det = 0 then .error .SingularMatrix
  else .ok (coVarFull integ)⁻¹

/-- Identity-pattern integration oracle for the C7 witness. -/
def wInteg : Fin 16 → Fin 16 → ℚ := fun i j => if i = j then 1 else 0

theorem length_combinations {α : Type*} (k : ℕ) (l : List α) :
    (combinations k l).length = l.length.choose k := by
  induction l generalizing k with
  | nil => cases k <;> simp [combinations]
  | cons x xs ih =>
    cases k with
    | zero => simp [combinations]
    | succ k => simp [combinations, ih, Nat.choose_succ_succ, Nat.add_comm]

theorem mem_combinations_sublist {α : Type*} {k : ℕ} {l c : List α}
    (hc : c ∈ combinations k l) : c.Sublist l ∧ c.length = k := by
  induction l generalizing k c with
  | nil =>
    cases k with
    | zero => simp [combinations] at hc; simp [hc]
    | succ k => simp [combinations] at hc
  | cons x xs ih =>
    cases k with
    | zero =>
      simp [combinations] at hc
      simp [hc]
    | succ k =>
      simp only [combinations, List.mem_append, List.mem_map] at hc
      rcases hc with ⟨c', hc', rfl⟩ | hc
      · obtain ⟨hs, hl⟩ := ih hc'
        exact ⟨List.Sublist.cons₂ x hs, by simp [hl]⟩
      · obtain ⟨hs, hl⟩ := ih hc
        exact ⟨hs.cons x, hl⟩

theorem nodup_combinations {α : Type*} {l : List α} (k : ℕ) (hl : l.Nodup) :
    (combinations k l).Nodup := by
  induction l generalizing k with
  | nil => cases k <;> simp [combinations]
  | cons x xs ih =>
    cases k with
    | zero => simp [combinations]
    | succ k =>
      have hx : x ∉ xs := (List.nodup_cons.mp hl).1
      have hxs : xs.Nodup := (List.nodup_cons.mp hl).2
      refine List.Nodup.append ?_ (ih (k + 1) hxs) ?_
      · exact (ih k hxs).map (fun a b h => by injection h)
      · intro c hc1 hc2
        simp only [List.mem_map] at hc1
        obtain ⟨c', _, rfl⟩ := hc1
        have hs := (mem_combinations_sublist hc2).1
        exact hx (hs.subset (List.mem_cons_self x c'))

theorem combinations_pairwise_lex {l : List ℕ} (k : ℕ)
    (hl : l.Pairwise (· < ·)) :
    (combinations k l).Pairwise (List.Lex (· < ·)) := by
  induction l generalizing k with
  | nil => cases k <;> simp [combinations]
  | cons x xs ih =>
    cases k with
    | zero => simp [combinations]
    | succ k =>
      have hxlt : ∀ y ∈ xs, x < y := fun y hy => (List.pairwise_cons.mp hl).1 y hy
      have hxs : xs.Pairwise (· < ·) := (List.pairwise_cons.mp hl).2
      refine List.pairwise_append.mpr ⟨?_, ih (k + 1) hxs, ?_⟩
      · have hpw : (combinations k xs).Pairwise
            (fun a b => List.Lex (· < ·) (x :: a) (x :: b)) :=
          (ih k hxs).imp (fun h => List.Lex.cons h)
        exact List.pairwise_map.mpr hpw
      · intro c1 hc1 c2 hc2
        simp only [List.mem_map] at hc1
        obtain ⟨c1', _, rfl⟩ := hc1
        obtain ⟨hs2, hl2⟩ := mem_combinations_sublist hc2
        cases c2 with
        | nil => simp at hl2
        | cons y ys =>
          have hy : y ∈ xs := hs2.subset (List.mem_cons_self y ys)
          exact List.Lex.rel (hxlt y hy)

/-- C2: for a target with a neighbor list of exactly 50 distinct assets,
candidate generation yields exactly `C(50,3) = 19600` quadruples, each the
target followed by 3 distinct neighbors, with no duplicate quadruples; and
the index-based enumeration (`_prepare_combinations_of_partners` on the
51-element stock selection) emits the 3-combinations of indices `1..50`,
`0`-prefixed, in lexicographic index order. -/
theorem quadruple_generation_spec {α : Type*} (target : α) (row : List α)
    (sel : List α) (h50 : row.length = 50) (hnd : row.Nodup)
    (hsel : sel.length = 51) :
    (generate_all_quadruples_helper target row).length = 19600 ∧
    (∀ q ∈ generate_all_quadruples_helper target row,
      ∃ tr, q = target :: tr ∧ tr.length = 3 ∧ tr.Nodup ∧ ∀ a ∈ tr, a ∈ row) ∧
    (generate_all_quadruples_helper target row).Nodup ∧
    (prepare_combinations_of_partners sel).length = 19600 ∧
    (∀ c ∈ prepare_combinations_of_partners sel,
      ∃ t, c = 0 :: t ∧ t.length = 3 ∧ t.Pairwise (· < ·) ∧
        ∀ i ∈ t, 1 ≤ i ∧ i ≤ 50) ∧
    (prepare_combinations_of_partners sel).Nodup ∧
    (prepare_combinations_of_partners sel).Pairwise (List.Lex (· < ·)) := by
  have hchoose : Nat.choose 50 3 = 19600 := by decide
  have hrange : sel.length - 1 = 50 := by omega
  refine ⟨?_, ?_, ?_, ?_, ?_, ?_, ?_⟩
  · simp [generate_all_quadruples_helper, length_combinations, h50, hchoose]
  · intro q hq
    simp only [generate_all_quadruples_helper, List.mem_map] at hq
    obtain ⟨tr, htr, rfl⟩ := hq
    obtain ⟨hs, hlen⟩ := mem_combinations_sublist htr
    exact ⟨tr, rfl, hlen, hs.nodup hnd, fun a ha => hs.subset ha⟩
  · exact (nodup_combinations 3 hnd).map (fun a b h => by injection h)
  · simp [prepare_combinations_of_partners, length_combinations, hrange, hchoose]
  · intro c hc
    simp only [prepare_combinations_of_partners, List.mem_map] at hc
    obtain ⟨t, ht, rfl⟩ := hc
    obtain ⟨hs, hlen⟩ := mem_combinations_sublist ht
    refine ⟨t, rfl, hlen, ?_, ?_⟩
    · have hp : (List.range' 1 (sel.length - 1)).Pairwise (· < ·) := by
        rw [hrange]; exact List.pairwise_lt_range' 1 50
      exact List.Pairwise.sublist hs hp
    · intro i hi
      have := List.mem_range'_1.mp (hs.subset hi |> fun h => by rwa [hrange] at h)
      omega
  · refine (nodup_combinations 3 ?_).map (fun a b h => by injection h)
    rw [hrange]; exact List.nodup_range' 1 50
  · have hp : (List.range' 1 (sel.length - 1)).Pairwise (· < ·) := by
      rw [hrange]; exact List.pairwise_lt_range' 1 50
    have hpl := combinations_pairwise_lex 3 hp
    have hpw : (combinations 3 (List.range' 1 (sel.length - 1))).Pairwise
        (fun a b => List.Lex (· < ·) ((0 : ℕ) :: a) (0 :: b)) :=
      hpl.imp (fun h => List.Lex.cons h)
    exact List.pairwise_map.mpr hpw

/-- Witness for C2 at a concrete 50-neighbor row. -/
theorem quadruple_generation_spec_witness :
    (List.range' 1 50).length = 50 ∧ (List.range' 1 50).Nodup ∧
    ((0 : ℕ) :: List.range' 1 50).length = 51 ∧
    ((generate_all_quadruples_helper 0 (List.range' 1 50)).length = 19600 ∧
    (∀ q ∈ generate_all_quadruples_helper 0 (List.range' 1 50),
      ∃ tr, q = 0 :: tr ∧ tr.length = 3 ∧ tr.Nodup ∧ ∀ a ∈ tr, a ∈ List.range' 1 50) ∧
    (generate_all_quadruples_helper 0 (List.range' 1 50)).Nodup ∧
    (prepare_combinations_of_partners ((0 : ℕ) :: List.range' 1 50)).length = 19600 ∧
    (∀ c ∈ prepare_combinations_of_partners ((0 : ℕ) :: List.range' 1 50),
      ∃ t, c = 0 :: t ∧ t.length = 3 ∧ t.Pairwise (· < ·) ∧
        ∀ i ∈ t, 1 ≤ i ∧ i ≤ 50) ∧
    (prepare_combinations_of_partners ((0 : ℕ) :: List.range' 1 50)).Nodup ∧
    (prepare_combinations_of_partners ((0 : ℕ) :: List.range' 1 50)).Pairwise
      (List.Lex (· < ·))) :=
  ⟨rfl, List.nodup_range' 1 50, rfl,
    quadruple_generation_spec 0 (List.range' 1 50) ((0 : ℕ) :: List.range' 1 50)
      rfl (List.nodup_range' 1 50) rfl⟩

theorem argmaxPair_spec {α : Type*} [LinearOrder α] (d x : α) (ys : List α) :
    (argmaxPair x ys).1 < (x :: ys).length ∧
    (x :: ys).getD (argmaxPair x ys).1 d = (argmaxPair x ys).2 ∧
    (argmaxPair x ys).2 ∈ x :: ys ∧
    ∀ z ∈ x :: ys, z ≤ (argmaxPair x ys).2 := by
  induction ys generalizing x with
  | nil => simp [argmaxPair]
  | cons y ys ih =>
    obtain ⟨ih1, ih2, ih3, ih4⟩ := ih y
    by_cases h : (argmaxPair y ys).2 ≤ x
    · refine ⟨by simp [argmaxPair, h], by simp [argmaxPair, h], by simp [argmaxPair, h], ?_⟩
      intro z hz
      simp only [argmaxPair, h, if_pos]
      rcases List.mem_cons.mp hz with rfl | hz
      · exact le_refl z
      · exact le_trans (ih4 z hz) h
    · refine ⟨?_, ?_, ?_, ?_⟩
      · simpa [argmaxPair, h] using Nat.succ_lt_succ ih1
      · simpa [argmaxPair, h] using ih2
      · simp only [argmaxPair, h, if_neg, not_false_iff]
        exact List.mem_cons_of_mem x ih3
      · intro z hz
        simp only [argmaxPair, h, if_neg, not_false_iff]
        rcases List.mem_cons.mp hz with rfl | hz
        · exact le_of_not_le h
        · exact ih4 z hz

theorem argminPair_spec {α : Type*} [LinearOrder α] (d x : α) (ys : List α) :
    (argminPair x ys).1 < (x :: ys).length ∧
    (x :: ys).getD (argminPair x ys).1 d = (argminPair x ys).2 ∧
    (argminPair x ys).2 ∈ x :: ys ∧
    ∀ z ∈ x :: ys, (argminPair x ys).2 ≤ z := by
  induction ys generalizing x with
  | nil => simp [argminPair]
  | cons y ys ih =>
    obtain ⟨ih1, ih2, ih3, ih4⟩ := ih y
    by_cases h : x ≤ (argminPair y ys).2
    · refine ⟨by simp [argminPair, h], by simp [argminPair, h], by simp [argminPair, h], ?_⟩
      intro z hz
      simp only [argminPair, h, if_pos]
      rcases List.mem_cons.mp hz with rfl | hz
      · exact le_refl z
      · exact le_trans h (ih4 z hz)
    · refine ⟨?_, ?_, ?_, ?_⟩
      · simpa [argminPair, h] using Nat.succ_lt_succ ih1
      · simpa [argminPair, h] using ih2
      · simp only [argminPair, h, if_neg, not_false_iff]
        exact List.mem_cons_of_mem x ih3
      · intro z hz
        simp only [argminPair, h, if_neg, not_false_iff]
        rcases List.mem_cons.mp hz with rfl | hz
        · exact le_of_not_le h
        · exact ih4 z hz

theorem rawPairSum_eq_directPairSum (M : ℕ → ℕ → ℚ)
    (hsym : ∀ i j, M i j = M j i) (hdiag : ∀ i, M i i = 1)
    {c : List ℕ} (hlen : c.length = 4) :
    (rawPairSum M c - c.length) / 2 = directPairSum M c := by
  rcases c with _ | ⟨a, _ | ⟨b, _ | ⟨e, _ | ⟨f, _ | ⟨g, t⟩⟩⟩⟩⟩ <;> simp at hlen
  simp only [rawPairSum, directPairSum, List.map_cons, List.map_nil,
    List.sum_cons, List.sum_nil, List.length_cons, List.length_nil]
  rw [hdiag a, hdiag b, hdiag e, hdiag f, hsym b a, hsym e a, hsym f a,
    hsym e b, hsym f b, hsym f e]
  push_cast
  ring

/-- C1: on a symmetric correlation sub-matrix with unit diagonal, the
vectorized score `(raw all-pairs sum - d) / 2` of every candidate quadruple
equals the direct sum of its 6 pairwise correlations, and
`get_sum_correlations_vectorized` returns a candidate whose score is maximal
over all candidates, together with that score. -/
theorem sum_correlations_spec (names : List String) (M : ℕ → ℕ → ℚ)
    (combos : List (List ℕ))
    (hsym : ∀ i j, M i j = M j i) (hdiag : ∀ i, M i i = 1)
    (hlen : ∀ c ∈ combos, c.length = 4) (hne : combos ≠ []) :
    (∀ c ∈ combos, (rawPairSum M c - c.length) / 2 = directPairSum M c) ∧
    ∃ c ∈ combos,
      (get_sum_correlations_vectorized names M combos).1 =
        c.map (fun i => names.getD i "") ∧
      (get_sum_correlations_vectorized names M combos).2 = directPairSum M c ∧
      ∀ c' ∈ combos, directPairSum M c' ≤ directPairSum M c := by
  have key : ∀ c ∈ combos, (rawPairSum M c - c.length) / 2 = directPairSum M c :=
    fun c hc => rawPairSum_eq_directPairSum M hsym hdiag (hlen c hc)
  refine ⟨key, ?_⟩
  rcases combos with _ | ⟨c0, rest⟩
  · exact absurd rfl hne
  obtain ⟨h1, h2, h3, h4⟩ :=
    argmaxPair_spec (0 : ℚ) ((rawPairSum M c0 - (c0.length : ℚ)) / 2)
      (rest.map (fun c => (rawPairSum M c - c.length) / 2))
  have hilen : (argmaxPair ((rawPairSum M c0 - (c0.length : ℚ)) / 2)
      (rest.map (fun c => (rawPairSum M c - c.length) / 2))).1 <
      (c0 :: rest).length := by
    simpa using h1
  have hilen' : (argmaxPair ((rawPairSum M c0 - (c0.length : ℚ)) / 2)
      (rest.map (fun c => (rawPairSum M c - c.length) / 2))).1 <
      ((c0 :: rest).map (fun c => (rawPairSum M c - (c.length : ℚ)) / 2)).length := by
    simpa using h1
  have hceq : (c0 :: rest).getD (argmaxPair ((rawPairSum M c0 - (c0.length : ℚ)) / 2)
      (rest.map (fun c => (rawPairSum M c - c.length) / 2))).1 [] =
      (c0 :: rest).get ⟨_, hilen⟩ :=
    List.getD_eq_getElem _ _ hilen
  have hval : ((c0 :: rest).map
      (fun c => (rawPairSum M c - (c.length : ℚ)) / 2)).getD
        (argmaxPair ((rawPairSum M c0 - (c0.length : ℚ)) / 2)
          (rest.map (fun c => (rawPairSum M c - c.length) / 2))).1 0 =
      (rawPairSum M ((c0 :: rest).get ⟨_, hilen⟩) -
        (((c0 :: rest).get ⟨_, hilen⟩).length : ℚ)) / 2 := by
    rw [List.getD_eq_getElem _ _ hilen', List.getElem_map]
    rfl
  have hidx : argmaxIdx ((c0 :: rest).map
      (fun c => (rawPairSum M c - (c.length : ℚ)) / 2)) =
      (argmaxPair ((rawPairSum M c0 - (c0.length : ℚ)) / 2)
        (rest.map (fun c => (rawPairSum M c - c.length) / 2))).1 := rfl
  refine ⟨(c0 :: rest).get ⟨_, hilen⟩, List.get_mem _ _ hilen, ?_, ?_, ?_⟩
  · show ((c0 :: rest).getD (argmaxIdx _) []).map (fun i => names.getD i "") = _
    rw [hidx, hceq]
  · show ((c0 :: rest).map
        (fun c => (rawPairSum M c - (c.length : ℚ)) / 2)).getD (argmaxIdx _) 0 = _
    rw [hidx, hval, key _ (List.get_mem _ _ hilen)]
  · intro c' hc'
    have hc'le : (rawPairSum M c' - (c'.length : ℚ)) / 2 ≤
        (argmaxPair ((rawPairSum M c0 - (c0.length : ℚ)) / 2)
          (rest.map (fun c => (rawPairSum M c - c.length) / 2))).2 := by
      refine h4 _ ?_
      rcases List.mem_cons.mp hc' with rfl | hc'
      · exact List.mem_cons_self _ _
      · exact List.mem_cons_of_mem _ (List.mem_map_of_mem _ hc')
    rw [← key c' hc', ← key _ (List.get_mem _ _ hilen)]
    calc (rawPairSum M c' - (c'.length : ℚ)) / 2 ≤ _ := hc'le
    _ = (rawPairSum M ((c0 :: rest).get ⟨_, hilen⟩) -
          (((c0 :: rest).get ⟨_, hilen⟩).length : ℚ)) / 2 := by
        rw [← hval]
        exact h2.symm

theorem wM_symm : ∀ i j, wM i j = wM j i := by
  intro i j
  unfold wM
  by_cases h : i = j
  · rw [if_pos h, if_pos h.symm]
  · rw [if_neg h, if_neg (fun hji => h hji.symm)]

/-- Witness for C1 at a concrete symmetric matrix and a single candidate. -/
theorem sum_correlations_spec_witness :
    (∀ i j, wM i j = wM j i) ∧ (∀ i, wM i i = 1) ∧
    (∀ c ∈ ([[0, 1, 2, 3]] : List (List ℕ)), c.length = 4) ∧
    (([[0, 1, 2, 3]] : List (List ℕ)) ≠ []) ∧
    ((∀ c ∈ ([[0, 1, 2, 3]] : List (List ℕ)),
        (rawPairSum wM c - c.length) / 2 = directPairSum wM c) ∧
      ∃ c ∈ ([[0, 1, 2, 3]] : List (List ℕ)),
        (get_sum_correlations_vectorized ["A", "B", "C", "D"] wM [[0, 1, 2, 3]]).1 =
          c.map (fun i => (["A", "B", "C", "D"] : List String).getD i "") ∧
        (get_sum_correlations_vectorized ["A", "B", "C", "D"] wM [[0, 1, 2, 3]]).2 =
          directPairSum wM c ∧
        ∀ c' ∈ ([[0, 1, 2, 3]] : List (List ℕ)),
          directPairSum wM c' ≤ directPairSum wM c) :=
  ⟨wM_symm, fun i => by simp [wM], by decide, by decide,
    sum_correlations_spec ["A", "B", "C", "D"] wM [[0, 1, 2, 3]]
      wM_symm (fun i => by simp [wM]) (by decide) (by decide)⟩

/-- C6: for a non-empty sample and any floor/cap with `floor ≤ cap` (the
defaults `1e-5 ≤ 0.99999` in particular), the function built by
`find_marginal_cdf` with `empirical = True` returns values clamped into
`[floor, cap]`, for scalar and element-wise array application alike. -/
theorem find_marginal_cdf_bounds (x : List ℚ) (pf pc : ℚ)
    (hx : x ≠ []) (hfc : pf ≤ pc) :
    find_marginal_cdf x true pf pc =
      some (fun qs => qs.map (fitted_cdf x pf pc)) ∧
    (∀ q, pf ≤ fitted_cdf x pf pc q ∧ fitted_cdf x pf pc q ≤ pc) ∧
    (∀ qs : List ℚ, ∀ v ∈ qs.map (fitted_cdf x pf pc), pf ≤ v ∧ v ≤ pc) := by
  have hscalar : ∀ q, pf ≤ fitted_cdf x pf pc q ∧ fitted_cdf x pf pc q ≤ pc := by
    intro q
    unfold fitted_cdf
    exact ⟨le_max_right _ _, max_le (min_le_right _ _) hfc⟩
  refine ⟨rfl, hscalar, ?_⟩
  intro qs v hv
  obtain ⟨q, _, rfl⟩ := List.mem_map.mp hv
  exact hscalar q

/-- Witness for C6 at the default floor/cap and a concrete sample. -/
theorem find_marginal_cdf_bounds_witness :
    ([(1 : ℚ), 3] ≠ []) ∧ prob_floor_default ≤ prob_cap_default ∧
    (find_marginal_cdf [1, 3] true prob_floor_default prob_cap_default =
      some (fun qs => qs.map (fitted_cdf [1, 3] prob_floor_default prob_cap_default)) ∧
    (∀ q, prob_floor_default ≤ fitted_cdf [1, 3] prob_floor_default prob_cap_default q ∧
      fitted_cdf [1, 3] prob_floor_default prob_cap_default q ≤ prob_cap_default) ∧
    (∀ qs : List ℚ, ∀ v ∈ qs.map (fitted_cdf [1, 3] prob_floor_default prob_cap_default),
      prob_floor_default ≤ v ∧ v ≤ prob_cap_default)) :=
  ⟨by simp, by norm_num [prob_floor_default, prob_cap_default],
    find_marginal_cdf_bounds [1, 3] prob_floor_default prob_cap_default
      (by simp) (by norm_num [prob_floor_default, prob_cap_default])⟩

/-- C10: with `empirical = False` the body of `find_marginal_cdf` falls
through to `return None` for every sample and every floor/cap setting. -/
theorem find_marginal_cdf_nonempirical_none (x : List ℚ) (pf pc : ℚ) :
    find_marginal_cdf x false pf pc = none := rfl

/-- Counterexample for C4 as stated: `n = 1`, `k = 1` has `n - k - 1 ≤ 0`,
yet `aic` performs the (negative-denominator) division and returns a value
instead of failing. -/
theorem aic_no_guard_counterexample :
    (1 : ℤ) - 1 - 1 ≤ 0 ∧ aic (-5) 1 1 = .ok 8 := by
  constructor
  · decide
  · unfold aic
    norm_num

/-- C4 amended: `aic` fails (with Python's `ZeroDivisionError`, not an
`InvalidSampleSize` error) exactly when `n = k + 1`; for every other pair,
including `n - k - 1 < 0`, it returns `(2n/(n-k-1))·k - 2·log_likelihood`. -/
theorem aic_spec (ll : ℚ) (n k : ℤ) :
    (n = k + 1 → aic ll n k = .error .ZeroDivisionError) ∧
    (n ≠ k + 1 →
      aic ll n k = .ok (2 * (n : ℚ) / ((n : ℚ) - (k : ℚ) - 1) * (k : ℚ) - 2 * ll)) := by
  constructor
  · intro h
    unfold aic
    rw [if_pos (by omega)]
  · intro h
    unfold aic
    rw [if_neg (by omega)]

/-- Witness for C4's amended claim at `n = 2, k = 1` (the spec's own test
input, which raises) and at `n = 10, k = 1` (which returns the formula). -/
theorem aic_spec_witness :
    ((2 : ℤ) = 1 + 1 ∧ aic (-5) 2 1 = .error .ZeroDivisionError) ∧
    ((10 : ℤ) ≠ 1 + 1 ∧ aic (-5) 10 1 =
      .ok (2 * (10 : ℚ) / ((10 : ℚ) - (1 : ℚ) - 1) * (1 : ℚ) - 2 * (-5))) :=
  ⟨⟨rfl, (aic_spec (-5) 2 1).1 rfl⟩,
    ⟨by decide, (aic_spec (-5) 10 1).2 (by decide)⟩⟩

/-- C5: for any data, invoking the tau-based fitter `ml_theta_hat` with
family `"Gaussian"` or `"Student"` fails with `InvalidFamily`, for every
factory satisfying the spec-modelled interface. -/
theorem ml_theta_hat_elliptical_invalid (sw : Switcher)
    (h : EllipticalTauPathFails sw) (x y : List ℚ) :
    ml_theta_hat sw x y "Gaussian" = .error .InvalidFamily ∧
    ml_theta_hat sw x y "Student" = .error .InvalidFamily :=
  ⟨(h 1 (kendalltau x y)).1, (h 1 (kendalltau x y)).2⟩

theorem specSwitcher_elliptical : EllipticalTauPathFails specSwitcher := by
  intro cov tau
  constructor
  · show (if ("Gaussian" : String) = "Gaussian" ∨ ("Gaussian" : String) = "Student"
      then Except.error PyErr.InvalidFamily else Except.ok 1) = _
    rw [if_pos (Or.inl rfl)]
  · show (if ("Student" : String) = "Gaussian" ∨ ("Student" : String) = "Student"
      then Except.error PyErr.InvalidFamily else Except.ok 1) = _
    rw [if_pos (Or.inr rfl)]

/-- Witness for C5 at concrete uniform-marginal data. -/
theorem ml_theta_hat_elliptical_invalid_witness :
    EllipticalTauPathFails specSwitcher ∧
    (ml_theta_hat specSwitcher [1/4, 1/2] [1/2, 3/4] "Gaussian" =
        .error .InvalidFamily ∧
      ml_theta_hat specSwitcher [1/4, 1/2] [1/2, 3/4] "Student" =
        .error .InvalidFamily) :=
  ⟨specSwitcher_elliptical,
    ml_theta_hat_elliptical_invalid specSwitcher specSwitcher_elliptical
      [1/4, 1/2] [1/2, 3/4]⟩

/-- Counterexample for C3 as stated: a fit whose density is `0 ≤ 0` at the
data pair, yet `log_ml` returns a log-likelihood sum (the log of the
non-positive density is silently coerced) instead of failing with
`DegenerateFit`. -/
theorem log_ml_no_degenerate_fit_counterexample :
    zeroDensityCopula.c (1/2) (1/2) ≤ 0 ∧
    log_ml zeroDensitySwitcher dudPpf [1/2] [1/2] "Clayton" none =
      .ok (log_likelihood_sum zeroDensityCopula [1/2] [1/2], zeroDensityCopula) ∧
    log_ml zeroDensitySwitcher dudPpf [1/2] [1/2] "Clayton" none ≠
      .error .DegenerateFit := by
  refine ⟨le_refl 0, rfl, ?_⟩
  intro h
  rw [show log_ml zeroDensitySwitcher dudPpf [1/2] [1/2] "Clayton" none =
    .ok (log_likelihood_sum zeroDensityCopula [1/2] [1/2], zeroDensityCopula) from rfl] at h
  exact Except.noConfusion h

/-- C3 amended: `log_ml` performs no positivity check on the densities —
whenever the name dispatch and tau inversion succeed it returns the summed
logarithm of the density list, even when some density evaluation at a data
pair is zero or negative. -/
theorem log_ml_ignores_nonpositive_density (sw : Switcher) (lib : PpfLib)
    (x y : List ℚ) (name : String) (theta : ℝ)
    (hname : name ∈ theta_copula_names)
    (htheta : ml_theta_hat sw x y name = .ok theta)
    (hdeg : ∃ p ∈ x.zip y, (sw.choose_theta name theta).c p.1 p.2 ≤ 0) :
    log_ml sw lib x y name none =
      .ok (log_likelihood_sum (sw.choose_theta name theta) x y,
        sw.choose_theta name theta) := by
  unfold log_ml
  rw [if_pos hname, htheta]

/-- Witness for C3's amended claim at the zero-density factory. -/
theorem log_ml_ignores_nonpositive_density_witness :
    ("Clayton" ∈ theta_copula_names) ∧
    (ml_theta_hat zeroDensitySwitcher [1/2] [1/2] "Clayton" = .ok 1) ∧
    (∃ p ∈ List.zip ([1/2] : List ℚ) ([1/2] : List ℚ),
      (zeroDensitySwitcher.choose_theta "Clayton" 1).c p.1 p.2 ≤ 0) ∧
    log_ml zeroDensitySwitcher dudPpf [1/2] [1/2] "Clayton" none =
      .ok (log_likelihood_sum (zeroDensitySwitcher.choose_theta "Clayton" 1) [1/2] [1/2],
        zeroDensitySwitcher.choose_theta "Clayton" 1) :=
  ⟨by decide, rfl, ⟨(1/2, 1/2), by simp, le_refl 0⟩,
    log_ml_ignores_nonpositive_density zeroDensitySwitcher dudPpf [1/2] [1/2]
      "Clayton" 1 (by decide) rfl ⟨(1/2, 1/2), by simp, le_refl 0⟩⟩

theorem insertDesc_perm {α : Type*} (x : α × ℚ) (l : List (α × ℚ)) :
    (insertDesc x l).Perm (x :: l) := by
  induction l with
  | nil => simp [insertDesc]
  | cons y ys ih =>
    by_cases h : y.2 ≤ x.2
    · simp [insertDesc, h]
    · simp only [insertDesc, if_neg h]
      exact (ih.cons y).trans (List.Perm.swap x y ys)

theorem sortValuesDesc_perm {α : Type*} (l : List (α × ℚ)) :
    (sortValuesDesc l).Perm l := by
  induction l with
  | nil => simp [sortValuesDesc]
  | cons x xs ih =>
    exact (insertDesc_perm x (sortValuesDesc xs)).trans (ih.cons x)

theorem insertDesc_sorted {α : Type*} (x : α × ℚ) {l : List (α × ℚ)}
    (hl : l.Pairwise (fun a b => b.2 ≤ a.2)) :
    (insertDesc x l).Pairwise (fun a b => b.2 ≤ a.2) := by
  induction l with
  | nil => simp [insertDesc]
  | cons y ys ih =>
    obtain ⟨hy, hys⟩ := List.pairwise_cons.mp hl
    by_cases h : y.2 ≤ x.2
    · rw [insertDesc, if_pos h]
      refine List.pairwise_cons.mpr ⟨?_, hl⟩
      intro z hz
      rcases List.mem_cons.mp hz with rfl | hz
      · exact h
      · exact le_trans (hy z hz) h
    · rw [insertDesc, if_neg h]
      refine List.pairwise_cons.mpr ⟨?_, ih hys⟩
      intro z hz
      have hz' := (insertDesc_perm x ys).mem_iff.mp hz
      rcases List.mem_cons.mp hz' with rfl | hz'
      · exact le_of_not_le h
      · exact hy z hz'

theorem sortValuesDesc_sorted {α : Type*} (l : List (α × ℚ)) :
    (sortValuesDesc l).Pairwise (fun a b => b.2 ≤ a.2) := by
  induction l with
  | nil => simp [sortValuesDesc]
  | cons x xs ih => exact insertDesc_sorted x ih

theorem insertDesc_of_lt {α : Type*} (x : α × ℚ) (l : List (α × ℚ))
    (h : ∀ y ∈ l, y.2 < x.2) : insertDesc x l = x :: l := by
  cases l with
  | nil => rfl
  | cons y ys =>
    simp only [insertDesc, if_pos (le_of_lt (h y (List.mem_cons_self y ys)))]

theorem sortValuesDesc_splice_max {α : Type*} (x : α × ℚ)
    (l1 l2 : List (α × ℚ)) (h : ∀ y ∈ l1 ++ l2, y.2 < x.2) :
    sortValuesDesc (l1 ++ x :: l2) = x :: sortValuesDesc (l1 ++ l2) := by
  induction l1 with
  | nil =>
    simp only [List.nil_append] at h ⊢
    show insertDesc x (sortValuesDesc l2) = x :: sortValuesDesc l2
    refine insertDesc_of_lt x _ ?_
    intro y hy
    exact h y ((sortValuesDesc_perm l2).subset hy)
  | cons a l1 ih =>
    have ha : a.2 < x.2 := h a (List.mem_cons_self a _)
    have h' : ∀ y ∈ l1 ++ l2, y.2 < x.2 :=
      fun y hy => h y (List.mem_cons_of_mem a hy)
    show insertDesc a (sortValuesDesc (l1 ++ x :: l2)) = _
    rw [ih h']
    show insertDesc a (x :: sortValuesDesc (l1 ++ l2)) =
      x :: sortValuesDesc (a :: (l1 ++ l2))
    simp only [insertDesc, if_neg (not_le.mpr ha)]
    rfl

/-- Counterexample for C9 as stated: on the 2-asset all-ones correlation
matrix (a tie at correlation 1), the neighbor list of target `"B"` is
`["B"]` — the target itself is kept and the other asset excluded, because
the code drops whichever row sorts first rather than the target's row. -/
theorem top_50_tickers_self_not_excluded_counterexample :
    top_50_tickers ["A", "B"] (fun _ _ => (1 : ℚ)) "B" = ["B"] ∧
    "B" ∈ top_50_tickers ["A", "B"] (fun _ _ => (1 : ℚ)) "B" ∧
    "A" ∉ top_50_tickers ["A", "B"] (fun _ _ => (1 : ℚ)) "B" := by
  refine ⟨?_, ?_, ?_⟩ <;> decide

/-- C9 amended: when the target's self-correlation is the unique strict
maximum of its column (no tie at the top), `_top_50_tickers` returns the
other assets sorted by correlation descending, stable ties in original
column order, truncated to the first 50, with the target excluded —
otherwise (see the counterexample) the dropped first row need not be the
target. -/
theorem top_50_tickers_unique_max_spec {α : Type*} [DecidableEq α]
    (assets : List α) (M : α → α → ℚ) (t : α)
    (ht : t ∈ assets) (hnd : assets.Nodup)
    (hmax : ∀ a ∈ assets, a ≠ t → M a t < M t t) :
    top_50_tickers assets M t = top_k_neighbors_spec assets M t 50 ∧
    t ∉ top_50_tickers assets M t ∧
    (top_50_tickers assets M t).Pairwise (fun a b => M b t ≤ M a t) := by
  obtain ⟨l1, l2, rfl⟩ := List.append_of_mem ht
  have hnd' := List.nodup_append.mp hnd
  have htl2 : t ∉ l2 := (List.nodup_cons.mp hnd'.2.1).1
  have htl1 : t ∉ l1 := fun h => hnd'.2.2 h (List.mem_cons_self t l2)
  have hmap : (l1 ++ t :: l2).map (fun a => (a, M a t)) =
      l1.map (fun a => (a, M a t)) ++ (t, M t t) ::
        l2.map (fun a => (a, M a t)) := by
    simp
  have hall : ∀ y ∈ l1.map (fun a => (a, M a t)) ++ l2.map (fun a => (a, M a t)),
      y.2 < M t t := by
    intro y hy
    rcases List.mem_append.mp hy with hy | hy <;>
      obtain ⟨a, ha, rfl⟩ := List.mem_map.mp hy
    · exact hmax a (List.mem_append_left _ ha) (fun h => htl1 (h ▸ ha))
    · exact hmax a (List.mem_append_right _ (List.mem_cons_of_mem t ha))
        (fun h => htl2 (h ▸ ha))
  have hsplice : sortValuesDesc ((l1 ++ t :: l2).map (fun a => (a, M a t))) =
      (t, M t t) :: sortValuesDesc
        (l1.map (fun a => (a, M a t)) ++ l2.map (fun a => (a, M a t))) := by
    rw [hmap]
    exact sortValuesDesc_splice_max (t, M t t) _ _ hall
  have hfilter : (l1 ++ t :: l2).filter (fun a => a ≠ t) = l1 ++ l2 := by
    rw [List.filter_append]
    have h1 : l1.filter (fun a => a ≠ t) = l1 := by
      refine List.filter_eq_self.mpr ?_
      intro a ha
      have hne : a ≠ t := fun h => htl1 (h ▸ ha)
      simpa using hne
    have h2 : (t :: l2).filter (fun a => a ≠ t) = l2 := by
      rw [List.filter_cons_of_neg (by simp)]
      refine List.filter_eq_self.mpr ?_
      intro a ha
      have hne : a ≠ t := fun h => htl2 (h ▸ ha)
      simpa using hne
    rw [h1, h2]
  have hcode : top_50_tickers (l1 ++ t :: l2) M t =
      ((sortValuesDesc (l1.map (fun a => (a, M a t)) ++
        l2.map (fun a => (a, M a t)))).take 50).map Prod.fst := by
    unfold top_50_tickers tickers_list
    rw [hsplice]
    rfl
  have hspec : top_k_neighbors_spec (l1 ++ t :: l2) M t 50 =
      ((sortValuesDesc (l1.map (fun a => (a, M a t)) ++
        l2.map (fun a => (a, M a t)))).take 50).map Prod.fst := by
    unfold top_k_neighbors_spec
    rw [hfilter, List.map_append]
  have hmem50 : ∀ p ∈ (sortValuesDesc (l1.map (fun a => (a, M a t)) ++
      l2.map (fun a => (a, M a t)))).take 50,
      p.2 = M p.1 t ∧ p.1 ≠ t := by
    intro p hp
    have hp' := (sortValuesDesc_perm _).mem_iff.mp ((List.take_sublist _ _).subset hp)
    rcases List.mem_append.mp hp' with hp' | hp' <;>
      obtain ⟨a, ha, rfl⟩ := List.mem_map.mp hp'
    · exact ⟨rfl, fun h => htl1 (h ▸ ha)⟩
    · exact ⟨rfl, fun h => htl2 (h ▸ ha)⟩
  refine ⟨hcode.trans hspec.symm, ?_, ?_⟩
  · rw [hcode]
    intro hmem
    obtain ⟨p, hp, hpt⟩ := List.mem_map.mp hmem
    exact (hmem50 p hp).2 hpt
  · rw [hcode]
    have hsorted : ((sortValuesDesc (l1.map (fun a => (a, M a t)) ++
        l2.map (fun a => (a, M a t)))).take 50).Pairwise
        (fun a b => b.2 ≤ a.2) :=
      (sortValuesDesc_sorted _).sublist (List.take_sublist _ _)
    refine List.pairwise_map.mpr (hsorted.imp_of_mem ?_)
    intro p q hp hq hle
    rw [← (hmem50 p hp).1, ← (hmem50 q hq).1]
    exact hle

/-- Witness for C9's amended claim at a concrete 3-asset universe. -/
theorem top_50_tickers_unique_max_spec_witness :
    ("A" ∈ ["A", "B", "C"]) ∧ (["A", "B", "C"] : List String).Nodup ∧
    (∀ a ∈ ["A", "B", "C"], a ≠ "A" → wM9 a "A" < wM9 "A" "A") ∧
    (top_50_tickers ["A", "B", "C"] wM9 "A" =
        top_k_neighbors_spec ["A", "B", "C"] wM9 "A" 50 ∧
      "A" ∉ top_50_tickers ["A", "B", "C"] wM9 "A" ∧
      (top_50_tickers ["A", "B", "C"] wM9 "A").Pairwise
        (fun a b => wM9 b "A" ≤ wM9 a "A")) :=
  ⟨by decide, by decide, by decide,
    top_50_tickers_unique_max_spec ["A", "B", "C"] wM9 "A"
      (by decide) (by decide) (by decide)⟩

theorem rowDiagDist_nonneg (row : List ℚ) (c : List ℕ) :
    0 ≤ rowDiagDist row c := by
  unfold rowDiagDist
  exact Real.sqrt_nonneg _

theorem rowDiagDist_zero {row : List ℚ} {q : List ℕ} (h4 : q.length = 4)
    (heq : onDiag row q) : rowDiagDist row q = 0 := by
  rcases q with _ | ⟨a, _ | ⟨b, _ | ⟨e, _ | ⟨f, _ | ⟨g, t⟩⟩⟩⟩⟩ <;> simp at h4
  have hma : a ∈ [a, b, e, f] := by simp
  have hmb : b ∈ [a, b, e, f] := by simp
  have hme : e ∈ [a, b, e, f] := by simp
  have hmf : f ∈ [a, b, e, f] := by simp
  have e2 := heq b hmb a hma
  have e3 := heq e hme a hma
  have e4 := heq f hmf a hma
  unfold rowDiagDist rowVals
  rw [Real.sqrt_eq_zero']
  simp only [List.map_cons, List.map_nil, List.sum_cons, List.sum_nil,
    List.length_cons, List.length_nil, e2, e3, e4]
  push_cast
  nlinarith [sq_nonneg ((row.getD a 0 : ℝ))]

theorem rowDiagDist_pos {row : List ℚ} {c : List ℕ} (h4 : c.length = 4)
    (hoff : ¬ onDiag row c) : 0 < rowDiagDist row c := by
  rcases c with _ | ⟨a, _ | ⟨b, _ | ⟨e, _ | ⟨f, _ | ⟨g, t⟩⟩⟩⟩⟩ <;> simp at h4
  have hdiff : row.getD a 0 ≠ row.getD b 0 ∨ row.getD a 0 ≠ row.getD e 0 ∨
      row.getD a 0 ≠ row.getD f 0 := by
    by_contra hcon
    push_neg at hcon
    obtain ⟨h1, h2, h3⟩ := hcon
    refine hoff ?_
    intro k1 hk1 k2 hk2
    simp only [List.mem_cons, List.not_mem_nil, or_false] at hk1 hk2
    rcases hk1 with rfl | rfl | rfl | rfl <;> rcases hk2 with rfl | rfl | rfl | rfl <;>
      linarith
  unfold rowDiagDist rowVals
  rw [Real.sqrt_pos]
  simp only [List.map_cons, List.map_nil, List.sum_cons, List.sum_nil,
    List.length_cons, List.length_nil]
  push_cast
  rcases hdiff with hne | hne | hne
  · have hner : ((row.getD a 0 : ℝ)) ≠ ((row.getD b 0 : ℝ)) := by exact_mod_cast hne
    have hpos : 0 < ((row.getD a 0 : ℝ) - (row.getD b 0 : ℝ)) ^ 2 := by
      have := sub_ne_zero_of_ne hner
      positivity
    nlinarith [sq_nonneg ((row.getD a 0 : ℝ) - (row.getD e 0 : ℝ)),
      sq_nonneg ((row.getD a 0 : ℝ) - (row.getD f 0 : ℝ)),
      sq_nonneg ((row.getD b 0 : ℝ) - (row.getD e 0 : ℝ)),
      sq_nonneg ((row.getD b 0 : ℝ) - (row.getD f 0 : ℝ)),
      sq_nonneg ((row.getD e 0 : ℝ) - (row.getD f 0 : ℝ))]
  · have hner : ((row.getD a 0 : ℝ)) ≠ ((row.getD e 0 : ℝ)) := by exact_mod_cast hne
    have hpos : 0 < ((row.getD a 0 : ℝ) - (row.getD e 0 : ℝ)) ^ 2 := by
      have := sub_ne_zero_of_ne hner
      positivity
    nlinarith [sq_nonneg ((row.getD a 0 : ℝ) - (row.getD b 0 : ℝ)),
      sq_nonneg ((row.getD a 0 : ℝ) - (row.getD f 0 : ℝ)),
      sq_nonneg ((row.getD b 0 : ℝ) - (row.getD e 0 : ℝ)),
      sq_nonneg ((row.getD b 0 : ℝ) - (row.getD f 0 : ℝ)),
      sq_nonneg ((row.getD e 0 : ℝ) - (row.getD f 0 : ℝ))]
  · have hner : ((row.getD a 0 : ℝ)) ≠ ((row.getD f 0 : ℝ)) := by exact_mod_cast hne
    have hpos : 0 < ((row.getD a 0 : ℝ) - (row.getD f 0 : ℝ)) ^ 2 := by
      have := sub_ne_zero_of_ne hner
      positivity
    nlinarith [sq_nonneg ((row.getD a 0 : ℝ) - (row.getD b 0 : ℝ)),
      sq_nonneg ((row.getD a 0 : ℝ) - (row.getD e 0 : ℝ)),
      sq_nonneg ((row.getD b 0 : ℝ) - (row.getD e 0 : ℝ)),
      sq_nonneg ((row.getD b 0 : ℝ) - (row.getD f 0 : ℝ)),
      sq_nonneg ((row.getD e 0 : ℝ) - (row.getD f 0 : ℝ))]

theorem diagScore_nonneg (data : List (List ℚ)) (c : List ℕ) :
    0 ≤ diagScore data c := by
  refine List.sum_nonneg ?_
  intro x hx
  obtain ⟨row, _, rfl⟩ := List.mem_map.mp hx
  exact rowDiagDist_nonneg _ _

theorem diagScore_zero {data : List (List ℚ)} {q : List ℕ} (h4 : q.length = 4)
    (hdiag : ∀ row ∈ data, onDiag row q) : diagScore data q = 0 := by
  unfold diagScore
  rw [List.sum_eq_zero]
  intro x hx
  obtain ⟨row, hrow, rfl⟩ := List.mem_map.mp hx
  exact rowDiagDist_zero h4 (hdiag row hrow)

theorem diagScore_pos {data : List (List ℚ)} {c : List ℕ} (h4 : c.length = 4)
    {row : List ℚ} (hrow : row ∈ data) (hoff : ¬ onDiag row c) :
    0 < diagScore data c := by
  unfold diagScore
  have hmem : rowDiagDist row c ∈ data.map (fun r => rowDiagDist r c) :=
    List.mem_map_of_mem _ hrow
  have hnn : ∀ x ∈ data.map (fun r => rowDiagDist r c), 0 ≤ x := by
    intro x hx
    obtain ⟨r, _, rfl⟩ := List.mem_map.mp hx
    exact rowDiagDist_nonneg _ _
  have hpos := rowDiagDist_pos h4 hoff
  clear hoff
  induction data with
  | nil => simp at hrow
  | cons r rs ih =>
    simp only [List.map_cons, List.sum_cons]
    rcases List.mem_cons.mp hrow with rfl | hrow'
    · have : 0 ≤ (rs.map (fun r => rowDiagDist r c)).sum :=
        List.sum_nonneg (fun x hx => hnn x (List.mem_cons_of_mem _ hx))
      linarith
    · have h0 : 0 ≤ rowDiagDist r c := rowDiagDist_nonneg _ _
      have := ih hrow' (List.mem_map_of_mem _ hrow')
        (fun x hx => hnn x (List.mem_cons_of_mem _ hx))
      linarith

/-- C8: on a dataset where every row of some candidate quadruple lies
exactly on the hyper-diagonal (all four selected ranks equal per row) —
and, making that minimizer unique, every other candidate leaves the
diagonal on some row — the diagonal-distance scorer assigns that quadruple
total score 0 and returns it as the winner, the winning score 0 being
minimal over all candidates. -/
theorem diagonal_measure_spec (names : List String) (data : List (List ℚ))
    (combos : List (List ℕ)) (q : List ℕ)
    (hq : q ∈ combos) (hlen : ∀ c ∈ combos, c.length = 4)
    (hdiag : ∀ row ∈ data, onDiag row q)
    (huniq : ∀ c ∈ combos, c ≠ q → ∃ row ∈ data, ¬ onDiag row c) :
    diagScore data q = 0 ∧
    (diagonal_measure_vectorized names data combos).1 =
      q.map (fun i => names.getD i "") ∧
    (diagonal_measure_vectorized names data combos).2 = 0 ∧
    ∀ c ∈ combos, (diagonal_measure_vectorized names data combos).2 ≤
      diagScore data c := by
  have hq0 : diagScore data q = 0 := diagScore_zero (hlen q hq) hdiag
  rcases combos with _ | ⟨c0, rest⟩
  · simp at hq
  obtain ⟨h1, h2, h3, h4⟩ :=
    argminPair_spec (0 : ℝ) (diagScore data c0) (rest.map (diagScore data))
  have hilen : (argminPair (diagScore data c0) (rest.map (diagScore data))).1 <
      (c0 :: rest).length := by simpa using h1
  have hilen' : (argminPair (diagScore data c0) (rest.map (diagScore data))).1 <
      ((c0 :: rest).map (diagScore data)).length := by simpa using h1
  have hval : ((c0 :: rest).map (diagScore data)).getD
      (argminPair (diagScore data c0) (rest.map (diagScore data))).1 0 =
      diagScore data ((c0 :: rest).get ⟨_, hilen⟩) := by
    rw [List.getD_eq_getElem _ _ hilen', List.getElem_map]
    rfl
  have hvle : (argminPair (diagScore data c0) (rest.map (diagScore data))).2 ≤
      diagScore data q := by
    refine h4 _ ?_
    rcases List.mem_cons.mp hq with rfl | hq'
    · exact List.mem_cons_self _ _
    · exact List.mem_cons_of_mem _ (List.mem_map_of_mem _ hq')
  have hsel0 : diagScore data ((c0 :: rest).get ⟨_, hilen⟩) = 0 := by
    have hge := diagScore_nonneg data ((c0 :: rest).get ⟨_, hilen⟩)
    have hsel : diagScore data ((c0 :: rest).get ⟨_, hilen⟩) =
        (argminPair (diagScore data c0) (rest.map (diagScore data))).2 :=
      hval.symm.trans h2
    have : diagScore data ((c0 :: rest).get ⟨_, hilen⟩) ≤ 0 := by
      rw [hsel, ← hq0]
      exact hvle
    linarith
  have hgetq : (c0 :: rest).get ⟨_, hilen⟩ = q := by
    by_contra hne
    obtain ⟨row, hrow, hoff⟩ :=
      huniq _ (List.get_mem _ _ hilen) hne
    have := diagScore_pos (hlen _ (List.get_mem _ _ hilen)) hrow hoff
    linarith [hsel0]
  have hceq : (c0 :: rest).getD
      (argminPair (diagScore data c0) (rest.map (diagScore data))).1 [] =
      (c0 :: rest).get ⟨_, hilen⟩ :=
    List.getD_eq_getElem _ _ hilen
  refine ⟨hq0, ?_, ?_, ?_⟩
  · show ((c0 :: rest).getD (argminIdx ((c0 :: rest).map (diagScore data))) []).map
      (fun i => names.getD i "") = _
    rw [show argminIdx ((c0 :: rest).map (diagScore data)) =
      (argminPair (diagScore data c0) (rest.map (diagScore data))).1 from rfl,
      hceq, hgetq]
  · show ((c0 :: rest).map (diagScore data)).getD
      (argminIdx ((c0 :: rest).map (diagScore data))) 0 = 0
    rw [show argminIdx ((c0 :: rest).map (diagScore data)) =
      (argminPair (diagScore data c0) (rest.map (diagScore data))).1 from rfl,
      hval, hgetq, hq0]
  · intro c hc
    show ((c0 :: rest).map (diagScore data)).getD
      (argminIdx ((c0 :: rest).map (diagScore data))) 0 ≤ diagScore data c
    rw [show argminIdx ((c0 :: rest).map (diagScore data)) =
      (argminPair (diagScore data c0) (rest.map (diagScore data))).1 from rfl,
      hval, hgetq, hq0]
    exact diagScore_nonneg data c

/-- Witness for C8 at a concrete dataset and two candidates. -/
theorem diagonal_measure_spec_witness :
    (([0, 1, 2, 3] : List ℕ) ∈ ([[0, 1, 2, 3], [0, 1, 2, 4]] : List (List ℕ))) ∧
    (∀ c ∈ ([[0, 1, 2, 3], [0, 1, 2, 4]] : List (List ℕ)), c.length = 4) ∧
    (∀ row ∈ wData8, onDiag row [0, 1, 2, 3]) ∧
    (∀ c ∈ ([[0, 1, 2, 3], [0, 1, 2, 4]] : List (List ℕ)),
      c ≠ [0, 1, 2, 3] → ∃ row ∈ wData8, ¬ onDiag row c) ∧
    (diagScore wData8 [0, 1, 2, 3] = 0 ∧
      (diagonal_measure_vectorized ["A", "B", "C", "D", "E"] wData8
        [[0, 1, 2, 3], [0, 1, 2, 4]]).1 =
        ([0, 1, 2, 3] : List ℕ).map
          (fun i => (["A", "B", "C", "D", "E"] : List String).getD i "") ∧
      (diagonal_measure_vectorized ["A", "B", "C", "D", "E"] wData8
        [[0, 1, 2, 3], [0, 1, 2, 4]]).2 = 0 ∧
      ∀ c ∈ ([[0, 1, 2, 3], [0, 1, 2, 4]] : List (List ℕ)),
        (diagonal_measure_vectorized ["A", "B", "C", "D", "E"] wData8
          [[0, 1, 2, 3], [0, 1, 2, 4]]).2 ≤ diagScore wData8 c) :=
  ⟨by decide, by decide, by decide, by decide,
    diagonal_measure_spec ["A", "B", "C", "D", "E"] wData8
      [[0, 1, 2, 3], [0, 1, 2, 4]] [0, 1, 2, 3]
      (by decide) (by decide) (by decide) (by decide)⟩

/-- C7: for every integration oracle, the matrix passed to inversion has
its `i ≤ j` entries computed by integration and its lower triangle
mirrored from the transpose, hence is symmetric; the operation returns the
inverse of that matrix and fails loudly when it is singular. -/
theorem co_variance_matrix_spec (integ : Fin 16 → Fin 16 → ℚ) :
    (∀ i j, i ≤ j → coVarFull integ i j = integ i j) ∧
    (∀ i j, j < i → coVarFull integ i j = integ j i) ∧
    (∀ i j, coVarFull integ i j = coVarFull integ j i) ∧
    ((coVarFull integ).det ≠ 0 →
      get_co_variance_matrix integ = .ok (coVarFull integ)⁻¹) ∧
    ((coVarFull integ).det = 0 →
      get_co_variance_matrix integ = .error .SingularMatrix) := by
  have hup : ∀ i j, i ≤ j → coVarFull integ i j = integ i j := by
    intro i j h
    simp only [coVarFull, coVarUpper, Matrix.of_apply]
    rw [if_neg (not_lt.mpr h), if_neg (not_lt.mpr h)]
  have hlo : ∀ i j, j < i → coVarFull integ i j = integ j i := by
    intro i j h
    simp only [coVarFull, coVarUpper, Matrix.of_apply]
    rw [if_pos h, if_neg (not_lt.mpr (le_of_lt h))]
  refine ⟨hup, hlo, ?_, ?_, ?_⟩
  · intro i j
    rcases lt_trichotomy i j with h | h | h
    · rw [hup i j (le_of_lt h), hlo j i h]
    · subst h; rfl
    · rw [hlo i j h, hup j i (le_of_lt h)]
  · intro h
    unfold get_co_variance_matrix
    rw [if_neg h]
  · intro h
    unfold get_co_variance_matrix
    rw [if_pos h]

/-- Witness for C7: the oracle produces the identity matrix, whose
determinant is nonzero, so the inverse is returned. -/
theorem co_variance_matrix_spec_witness :
    ((0 : Fin 16) ≤ 1 ∧ coVarFull wInteg 0 1 = wInteg 0 1) ∧
    ((0 : Fin 16) < 1 ∧ coVarFull wInteg 1 0 = wInteg 0 1) ∧
    ((coVarFull wInteg).det ≠ 0 ∧
      get_co_variance_matrix wInteg = .ok (coVarFull wInteg)⁻¹) := by
  obtain ⟨hup, hlo, hsym, hok, herr⟩ := co_variance_matrix_spec wInteg
  have hpt : ∀ i j, coVarFull wInteg i j = (1 : Matrix (Fin 16) (Fin 16) ℚ) i j := by
    intro i j
    rw [Matrix.one_apply]
    by_cases h : i = j
    · subst h
      rw [hup i i (le_refl i), if_pos rfl]
      simp [wInteg]
    · rw [if_neg h]
      rcases lt_or_gt_of_ne h with hlt | hgt
      · rw [hup i j (le_of_lt hlt)]
        simp [wInteg, h]
      · rw [hlo i j hgt]
        have hji : j ≠ i := fun hh => h hh.symm
        simp [wInteg, hji]
  have hone : coVarFull wInteg = 1 := Matrix.ext hpt
  have hdet : (coVarFull wInteg).det ≠ 0 := by
    have hu : IsUnit (coVarFull wInteg) := by
      rw [hone]
      exact isUnit_one
    exact ((Matrix.isUnit_iff_isUnit_det _).mp hu).ne_zero
  exact ⟨⟨by decide, hup 0 1 (by decide)⟩,
    ⟨by decide, hlo 1 0 (by decide)⟩,
    ⟨hdet, hok hdet⟩⟩

end ArbitrageLab
